import Mathlib

/-!
Shallow embedding of the logistic-regression training program of this
repository (`algoritmo_menu.go` and its sibling variants).

Modelling conventions:
* Go `float64` values are modelled as real numbers (`ℝ`); the benchmark
  timing samples, whose claims are purely order/arithmetic facts, are
  modelled as rationals (`ℚ`) so that concrete runs are decidable.
* Go slices are modelled as lists; an in-bounds access `xs[i]` is
  modelled as `xs.getD i default` (the source only indexes in bounds,
  where both coincide).
* Accumulation loops (`gradients[j] += ...`) are modelled as folds over
  the loop's index range; the in-place weight update loop becomes a
  function from the old to the new weight list.
* A Go `panic` is modelled by returning `none` from an `Option`-valued
  function.
* The unsynchronized accumulation `gradients[j] += partialGradients[j]`
  of the first `trainConcurrent` (no mutex in the source) is modelled
  twice: as a serialized idealization (`concGrad`, one admissible
  outcome, used where the race cannot fire), and by an explicit
  interleaving semantics (`RaceAction`, `raceResult`) capturing the
  lost-update executions the lockless code admits.
-/

/-! ## Benchmark harness: `trimmedMean` (second `algoritmo_menu.go` variant)

`trimmedMean(times []float64, trimCount int)` panics when
`len(times) <= 2*trimCount`, sorts `times` in place ascending
(`sort.Float64s`), takes the slice `times[trimCount : len(times)-trimCount]`
and returns its average.  Because the sort mutates the caller's slice, the
model returns both the average and the final state of the slice. -/

/-- Model of `trimmedMean`: `none` models the panic; on success the result
is the pair (trimmed average, final sorted state of the caller's slice). -/
def trimmedMean (times : List ℚ) (trimCount : ℕ) : Option (ℚ × List ℚ) :=
  if times.length ≤ 2 * trimCount then none
  else
    let sorted := times.insertionSort (fun a b => a ≤ b)
    let trimmed := (sorted.drop trimCount).take (sorted.length - 2 * trimCount)
    some (trimmed.sum / (trimmed.length : ℚ), sorted)

/-! ## Minibatch partitioning

The first `trainConcurrent` computes `batches := len(X)/batchSize`,
incremented when `len(X)%batchSize != 0`, and batch `b` covers
`[b*batchSize, min(b*batchSize+batchSize, len(X)))`.  The second variant's
trainers walk `i = 0, B, 2B, ...` while `i < len(X)` with the same
clamped upper end, visiting exactly the same ranges for `B ≥ 1`. -/

/-- Number of minibatches: `len(X)/batchSize`, plus one when the division
has a remainder (`batches++` in the source). -/
def nBatches (N B : ℕ) : ℕ := N / B + (if N % B = 0 then 0 else 1)

/-- The list of minibatch index ranges `[start, end)` generated for a
dataset of size `N` and batch size `B`. -/
def batchRanges (N B : ℕ) : List (ℕ × ℕ) :=
  (List.range (nBatches N B)).map (fun b => (b * B, min (b * B + B) N))

/-- Go evaluation of `batches := len(X)/batchSize; if len(X)%batchSize != 0
{ batches++ }` over machine ints: Go `/` and `%` are truncated division,
i.e. `Int.tdiv` and `Int.tmod`. -/
def goBatchCount (N : ℕ) (B : ℤ) : ℤ :=
  Int.tdiv (N : ℤ) B + (if Int.tmod (N : ℤ) B = 0 then 0 else 1)

/-- The batch ranges the Go `for b := 0; b < batches; b++` loop visits,
with Go int arithmetic.  When the loop body runs at all (`B > 0`) every
bound is nonnegative, so the cast to `ℕ` is exact there; for
`batches <= 0` (possible only for `B < 0`) the list is empty, matching a
loop body that never executes. -/
def goRanges (N : ℕ) (B : ℤ) : List (ℕ × ℕ) :=
  (List.range (goBatchCount N B).toNat).map
    (fun b => (((b : ℤ) * B).toNat, (min ((b : ℤ) * B + B) (N : ℤ)).toNat))

/-! ## Interleavings of the unsynchronized gradient accumulation

In the first `trainConcurrent` each goroutine merges its local gradient
into the shared slice with `gradients[j] += partialGradients[j]`
(`algoritmo_menu.go:145-148`) while holding no lock; the only mutex in
the repository is in the other, apply-per-batch variant.  Each such
statement is a read-modify-write of the shared component `gradients[j]`,
so its executions are interleavings of per-batch read and write
accesses; two tasks may both read before either writes, losing an
update.  (Sequentially consistent interleavings are assumed below; the
Go memory model promises even less for racy programs.) -/

/-- One shared-memory access of batch `b` to a component of the shared
`gradients` buffer: the read of `gradients[j]`, or the write of the read
value plus the batch's own contribution. -/
inductive RaceAction where
  | read (b : ℕ)
  | write (b : ℕ)
  deriving DecidableEq

/-- The batch performing an access. -/
def RaceAction.batch : RaceAction → ℕ
  | RaceAction.read b => b
  | RaceAction.write b => b

/-- A trace is an admissible interleaving for `m` batches when every
batch `b < m` performs exactly one read and one write, its read
preceding its write, and no other accesses occur (each goroutine
executes `gradients[j] += partialGradients[j]` exactly once). -/
@[reducible] def ValidTrace (m : ℕ) (tr : List RaceAction) : Prop :=
  (∀ b, b < m →
    tr.count (RaceAction.read b) = 1 ∧
    tr.count (RaceAction.write b) = 1 ∧
    tr.indexOf (RaceAction.read b) < tr.indexOf (RaceAction.write b)) ∧
  ∀ a ∈ tr, RaceAction.batch a < m

/-! ## Predictor and trainers (real-number model of `float64`) -/

noncomputable section

/-- Model of `sigmoid(z) = 1.0 / (1.0 + math.Exp(-z))`. -/
def sigmoid (z : ℝ) : ℝ := 1 / (1 + Real.exp (-z))

/-- The dot-product loop of `predict`: `z += X[i] * weights[i]` for
`i < len(X)`. -/
def dotp (x w : List ℝ) : ℝ :=
  ((List.range x.length).map (fun i => x.getD i 0 * w.getD i 0)).sum

/-- Model of `predict(X, weights) = sigmoid(z)` with `z` the dot product. -/
def predict (x w : List ℝ) : ℝ := sigmoid (dotp x w)

/-- Model of `features := len(X[0])`. -/
def features (X : List (List ℝ)) : ℕ := (X.getD 0 []).length

/-- The per-example error `error := pred - y[i]` with
`pred := predict(X[i], weights)`. -/
def errTerm (X : List (List ℝ)) (y w : List ℝ) (j : ℕ) : ℝ :=
  predict (X.getD j []) w - y.getD j 0

/-- One pass of the inner accumulation loop
`for j: gradients[j] += error * X[i][j]` applied to gradient buffer `g`
for example `j`. -/
def addExample (X : List (List ℝ)) (y w g : List ℝ) (j : ℕ) : List ℝ :=
  (List.range g.length).map
    (fun k => g.getD k 0 + errTerm X y w j * (X.getD j []).getD k 0)

/-- The gradient a batch `[s, e)` accumulates into a zero-initialised
buffer of length `features` (the body of both the sequential gradient
loop and a concurrent task's local-buffer loop). -/
def batchGrad (X : List (List ℝ)) (y w : List ℝ) (s e : ℕ) : List ℝ :=
  (List.range' s (e - s)).foldl (addExample X y w) (List.replicate (features X) 0)

/-- The weight-update loop `weights[k] -= learningRate * gradients[k] / denom`. -/
def applyUpdate (w g : List ℝ) (lr denom : ℝ) : List ℝ :=
  (List.range w.length).map (fun k => w.getD k 0 - lr * g.getD k 0 / denom)

/-- One accumulation of the first `trainConcurrent`, adding a batch
task's local gradient buffer into the shared `gradients` buffer
componentwise, taken as a single atomic step: the serialized
idealization of the lockless `gradients[j] += partialGradients[j]`
(see the race model for the interleavings the code actually admits). -/
def addGrads (g p : List ℝ) : List ℝ :=
  (List.range g.length).map (fun j => g.getD j 0 + p.getD j 0)

/-- The epoch gradient of the first `trainConcurrent` when the batches'
shared accumulations happen to serialize, in the order given by
`ranges`: the mutex-idealized execution.  The source performs these
accumulations concurrently with no lock, so this is only one of the
admissible outcomes. -/
def concGrad (X : List (List ℝ)) (y w : List ℝ) (ranges : List (ℕ × ℕ)) : List ℝ :=
  ranges.foldl (fun g r => addGrads g (batchGrad X y w r.1 r.2))
    (List.replicate (features X) 0)

/-- The outer `for iter := 0; iter < iterations; iter++` training loop. -/
def trainLoop (step : List ℝ → List ℝ) : ℕ → List ℝ → List ℝ
  | 0, w => w
  | n + 1, w => step (trainLoop step n w)

/-- One epoch of the full-batch `trainSequential` (first variant): one
gradient over the whole dataset, one update divided by `len(X)`. -/
def epochSeq (X : List (List ℝ)) (y : List ℝ) (lr : ℝ) (w : List ℝ) : List ℝ :=
  applyUpdate w (batchGrad X y w 0 X.length) lr (X.length : ℝ)

/-- Model of `trainSequential(X, y, learningRate, iterations)` (first variant,
full-batch gradient descent from zero-initialised weights). -/
def trainSequential (X : List (List ℝ)) (y : List ℝ) (lr : ℝ) (iterations : ℕ) : List ℝ :=
  trainLoop (epochSeq X y lr) iterations (List.replicate (features X) 0)

/-- One epoch of the first `trainConcurrent` (accumulate-then-apply) in
the serialized idealization: all batch gradients are accumulated, the
barrier waits, then a single update divided by `len(X)` is applied. -/
def epochConc (X : List (List ℝ)) (y : List ℝ) (lr : ℝ) (B : ℕ) (w : List ℝ) : List ℝ :=
  applyUpdate w (concGrad X y w (batchRanges X.length B)) lr (X.length : ℝ)

/-- Model of `trainConcurrent(X, y, learningRate, iterations, batchSize)`
(first variant, accumulate-then-apply) restricted to the executions in
which every shared accumulation serializes; `trainConcurrentRacy` below
covers the racy interleavings as well. -/
def trainConcurrent (X : List (List ℝ)) (y : List ℝ) (lr : ℝ) (iterations B : ℕ) : List ℝ :=
  trainLoop (epochConc X y lr B) iterations (List.replicate (features X) 0)

/-- The training loop with a per-epoch parameter: epoch `t` runs with
parameter `t`, used to give each epoch its own accumulation
interleaving (which the program does not fix). -/
def trainLoopSched (step : ℕ → List ℝ → List ℝ) : ℕ → List ℝ → List ℝ
  | 0, w => w
  | n + 1, w => step n (trainLoopSched step n w)

/-- Effect of one access on the pair (shared component value, per-batch
temporaries): a read stores the shared value in the batch's temporary; a
write stores temporary + the batch's contribution `vals b` back into the
shared component. -/
def raceStep (vals : ℕ → ℝ) (st : ℝ × (ℕ → Option ℝ)) (a : RaceAction) :
    ℝ × (ℕ → Option ℝ) :=
  match a with
  | RaceAction.read b => (st.1, fun c => if c = b then some st.1 else st.2 c)
  | RaceAction.write b =>
      match st.2 b with
      | some t => (t + vals b, st.2)
      | none => st

/-- Final value of one shared gradient component after the interleaving
`tr`, starting from the zero-initialised `gradients` buffer. -/
def raceResult (vals : ℕ → ℝ) (tr : List RaceAction) : ℝ :=
  (tr.foldl (raceStep vals) (0, fun _ => none)).1

/-- The epoch gradient produced by one interleaving per component: each
batch's local gradient is computed from the epoch-start weights (in the
source, `weights` is only read while the tasks run) and merged into the
shared buffer in whatever order the race resolves to. -/
def racyEpochGrad (X : List (List ℝ)) (y w : List ℝ) (ranges : List (ℕ × ℕ))
    (traces : ℕ → List RaceAction) : List ℝ :=
  (List.range (features X)).map (fun j =>
    raceResult
      (fun b => (batchGrad X y w (ranges.getD b (0, 0)).1 (ranges.getD b (0, 0)).2).getD j 0)
      (traces j))

/-- One epoch of the first `trainConcurrent` under an explicit racy
interleaving of the shared accumulation: accumulation, barrier, then the
single update dividing by `len(X)`. -/
def racyEpoch (X : List (List ℝ)) (y : List ℝ) (lr : ℝ) (B : ℕ)
    (traces : ℕ → List RaceAction) (w : List ℝ) : List ℝ :=
  applyUpdate w (racyEpochGrad X y w (batchRanges X.length B) traces) lr (X.length : ℝ)

/-- The first `trainConcurrent` with one accumulation interleaving per
epoch and per gradient component (`traces t j`): the behaviors the
lockless program admits under sequentially consistent interleavings. -/
def trainConcurrentRacy (X : List (List ℝ)) (y : List ℝ) (lr : ℝ)
    (iterations B : ℕ) (traces : ℕ → ℕ → List RaceAction) : List ℝ :=
  trainLoopSched (fun t w => racyEpoch X y lr B (traces t) w) iterations
    (List.replicate (features X) 0)

/-- The first `trainConcurrent` over its actual Go `int` batch-size
argument.  `batchSize = 0` makes `len(X)/batchSize` panic with integer
division by zero (modelled `none`); otherwise the trainer runs over the
ranges the Go loop visits. -/
def trainConcurrentChecked (X : List (List ℝ)) (y : List ℝ) (lr : ℝ)
    (iterations : ℕ) (B : ℤ) : Option (List ℝ) :=
  if B = 0 then none
  else
    some (trainLoop
      (fun w => applyUpdate w (concGrad X y w (goRanges X.length B)) lr (X.length : ℝ))
      iterations (List.replicate (features X) 0))

/-- One minibatch step of the second variant's `trainSequential`: gradient
over `[start, end)`, update divided by `float64(end - start)` (the batch's
actual size). -/
def batchStep (X : List (List ℝ)) (y : List ℝ) (lr : ℝ) (w : List ℝ) (r : ℕ × ℕ) : List ℝ :=
  applyUpdate w (batchGrad X y w r.1 r.2) lr ((r.2 - r.1 : ℕ) : ℝ)

/-- One epoch of the second variant's `trainSequential`: the minibatches
are processed in order, updating the weights after each batch. -/
def epochSeqMB (X : List (List ℝ)) (y : List ℝ) (lr : ℝ) (B : ℕ) (w : List ℝ) : List ℝ :=
  (batchRanges X.length B).foldl (batchStep X y lr) w

/-- Model of `trainSequential(X, y, learningRate, iterations, batchSize)` (second
variant, minibatch sequential trainer). -/
def trainSequentialMB (X : List (List ℝ)) (y : List ℝ) (lr : ℝ) (iterations B : ℕ) : List ℝ :=
  trainLoop (epochSeqMB X y lr B) iterations (List.replicate (features X) 0)

open Classical in
/-- The counting loop of `calculateAccuracy`: `correct++` exactly when
`(pred >= 0.5 && y[i] == 1.0) || (pred < 0.5 && y[i] == 0.0)`. -/
def correctCount (X : List (List ℝ)) (y w : List ℝ) : ℕ :=
  ((Finset.range X.length).filter (fun i =>
    (1 / 2 ≤ predict (X.getD i []) w ∧ y.getD i 0 = 1) ∨
    (predict (X.getD i []) w < 1 / 2 ∧ y.getD i 0 = 0))).card

/-- Model of `calculateAccuracy(X, y, weights) = float64(correct) / float64(len(X)) * 100`. -/
def calculateAccuracy (X : List (List ℝ)) (y w : List ℝ) : ℝ :=
  (correctCount X y w : ℝ) / (X.length : ℝ) * 100

open Classical in
/-- Specification-side classifier: example `i` is classified as class 1
when `predict(x_i, w) >= 0.5` and as class 0 otherwise. -/
def classify (X : List (List ℝ)) (w : List ℝ) (i : ℕ) : ℝ :=
  if 1 / 2 ≤ predict (X.getD i []) w then 1 else 0

open Classical in
/-- Specification-side match count: how many classifications agree with
the label. -/
def matchCount (X : List (List ℝ)) (y w : List ℝ) : ℕ :=
  ((Finset.range X.length).filter (fun i => classify X w i = y.getD i 0)).card

end

/-! ## Index bookkeeping lemmas -/

lemma getD_map_range {α : Type*} (f : ℕ → α) (n k : ℕ) (d : α) (hk : k < n) :
    ((List.range n).map f).getD k d = f k := by
  rw [List.getD_eq_getElem ((List.range n).map f) d (by simpa using hk)]
  simp

lemma getD_replicate_self {α : Type*} (a : α) (n k : ℕ) :
    (List.replicate n a).getD k a = a := by
  rcases lt_or_le k n with h | h
  · rw [List.getD_eq_getElem _ _ (by simpa using h)]
    simp
  · rw [List.getD_eq_getElem?_getD, List.getElem?_eq_none (by simpa using h)]
    rfl

lemma self_eq_map_getD (g : List ℝ) :
    (List.range g.length).map (fun k => g.getD k 0) = g := by
  apply List.ext_getElem
  · simp
  · intro n h₁ h₂
    simp only [List.getElem_map, List.getElem_range]
    exact List.getD_eq_getElem g 0 h₂

lemma length_addExample (X : List (List ℝ)) (y w g : List ℝ) (j : ℕ) :
    (addExample X y w g j).length = g.length := by
  simp [addExample]

lemma length_addGrads (g p : List ℝ) : (addGrads g p).length = g.length := by
  simp [addGrads]

/-! ## Closed form of the gradient-accumulation loops -/

lemma foldl_addExample_closed (X : List (List ℝ)) (y w : List ℝ) (n : ℕ) :
    ∀ (s : ℕ) (g : List ℝ),
      (List.range' s n).foldl (addExample X y w) g =
      (List.range g.length).map
        (fun k => g.getD k 0 +
          ∑ j ∈ Finset.Ico s (s + n), errTerm X y w j * (X.getD j []).getD k 0) := by
  induction n with
  | zero =>
    intro s g
    simp only [List.range'_zero, List.foldl_nil, Nat.add_zero, Finset.Ico_self,
      Finset.sum_empty, add_zero]
    exact (self_eq_map_getD g).symm
  | succ n ih =>
    intro s g
    rw [List.range'_succ, List.foldl_cons, ih (s + 1) (addExample X y w g s)]
    rw [length_addExample]
    apply List.map_congr_left
    intro k hk
    have hk' : k < g.length := by simpa using hk
    rw [addExample, getD_map_range _ _ _ _ hk']
    have hlt : s < s + (n + 1) := by omega
    rw [Finset.sum_eq_sum_Ico_succ_bot hlt]
    have : s + (n + 1) = (s + 1) + n := by omega
    rw [this]
    ring

lemma batchGrad_closed (X : List (List ℝ)) (y w : List ℝ) (s e : ℕ) :
    batchGrad X y w s e =
    (List.range (features X)).map
      (fun k => ∑ j ∈ Finset.Ico s e, errTerm X y w j * (X.getD j []).getD k 0) := by
  rw [batchGrad, foldl_addExample_closed, List.length_replicate]
  apply List.map_congr_left
  intro k _
  rcases le_or_lt s e with h | h
  · have : s + (e - s) = e := by omega
    rw [this, getD_replicate_self, zero_add]
  · have h1 : s + (e - s) = s := by omega
    have h2 : Finset.Ico s e = ∅ := Finset.Ico_eq_empty (by omega)
    rw [h1, h2, getD_replicate_self, Finset.Ico_self, zero_add]

lemma length_batchGrad (X : List (List ℝ)) (y w : List ℝ) (s e : ℕ) :
    (batchGrad X y w s e).length = features X := by
  rw [batchGrad_closed]
  simp

lemma getD_batchGrad (X : List (List ℝ)) (y w : List ℝ) (s e k : ℕ)
    (hk : k < features X) :
    (batchGrad X y w s e).getD k 0 =
    ∑ j ∈ Finset.Ico s e, errTerm X y w j * (X.getD j []).getD k 0 := by
  rw [batchGrad_closed, getD_map_range _ _ _ _ hk]

lemma foldl_addGrads_closed (X : List (List ℝ)) (y w : List ℝ) :
    ∀ (ranges : List (ℕ × ℕ)) (g : List ℝ), g.length = features X →
      ranges.foldl (fun g r => addGrads g (batchGrad X y w r.1 r.2)) g =
      (List.range (features X)).map
        (fun k => g.getD k 0 +
          (ranges.map
            (fun r => ∑ j ∈ Finset.Ico r.1 r.2,
              errTerm X y w j * (X.getD j []).getD k 0)).sum) := by
  intro ranges
  induction ranges with
  | nil =>
    intro g hg
    simp only [List.foldl_nil, List.map_nil, List.sum_nil, add_zero]
    rw [← hg, self_eq_map_getD]
  | cons r rs ih =>
    intro g hg
    rw [List.foldl_cons, ih (addGrads g (batchGrad X y w r.1 r.2))
      (by rw [length_addGrads, hg])]
    apply List.map_congr_left
    intro k hk
    have hk' : k < g.length := by simpa [hg] using hk
    rw [addGrads, getD_map_range _ _ _ _ hk']
    rw [getD_batchGrad _ _ _ _ _ _ (by simpa [hg] using hk')]
    simp only [List.map_cons, List.sum_cons]
    ring

lemma concGrad_closed (X : List (List ℝ)) (y w : List ℝ) (ranges : List (ℕ × ℕ)) :
    concGrad X y w ranges =
    (List.range (features X)).map
      (fun k => (ranges.map
        (fun r => ∑ j ∈ Finset.Ico r.1 r.2,
          errTerm X y w j * (X.getD j []).getD k 0)).sum) := by
  rw [concGrad, foldl_addGrads_closed X y w ranges _ (List.length_replicate _ _)]
  apply List.map_congr_left
  intro k _
  rw [getD_replicate_self, zero_add]

/-! ## Arithmetic facts about the batch count -/

lemma mul_nBatches_ge (N B : ℕ) (hB : 1 ≤ B) : N ≤ nBatches N B * B := by
  have hqr : B * (N / B) + N % B = N := Nat.div_add_mod N B
  have hr : N % B < B := Nat.mod_lt _ (by omega)
  rw [nBatches]
  rcases eq_or_ne (N % B) 0 with h0 | h0
  · rw [if_pos h0]
    have h1 : (N / B + 0) * B = B * (N / B) := by ring
    omega
  · rw [if_neg h0]
    have h1 : (N / B + 1) * B = B * (N / B) + B := by ring
    omega

lemma lt_of_lt_nBatches (N B : ℕ) (hB : 1 ≤ B) {t : ℕ} (ht : t < nBatches N B) :
    t * B < N := by
  have hqr : B * (N / B) + N % B = N := Nat.div_add_mod N B
  have hr : N % B < B := Nat.mod_lt _ (by omega)
  rw [nBatches] at ht
  rcases eq_or_ne (N % B) 0 with h0 | h0
  · rw [if_pos h0] at ht
    have h1 : t + 1 ≤ N / B := by omega
    have h2 : (t + 1) * B ≤ (N / B) * B := Nat.mul_le_mul_right B h1
    have h3 : (t + 1) * B = t * B + B := by ring
    have h4 : (N / B) * B = B * (N / B) := by ring
    omega
  · rw [if_neg h0] at ht
    have h1 : t ≤ N / B := by omega
    have h2 : t * B ≤ (N / B) * B := Nat.mul_le_mul_right B h1
    have h4 : (N / B) * B = B * (N / B) := by ring
    omega

/-! ## Summing over the partition of one epoch -/

lemma sum_batchRanges (N B : ℕ) (hB : 1 ≤ B) (f : ℕ → ℝ) :
    ((batchRanges N B).map (fun r => ∑ j ∈ Finset.Ico r.1 r.2, f j)).sum =
    ∑ j ∈ Finset.Ico 0 N, f j := by
  have aux : ∀ t, t ≤ nBatches N B →
      (((List.range t).map (fun b => ((b * B, min (b * B + B) N) : ℕ × ℕ))).map
        (fun r => ∑ j ∈ Finset.Ico r.1 r.2, f j)).sum =
      ∑ j ∈ Finset.Ico 0 (min (t * B) N), f j := by
    intro t
    induction t with
    | zero => simp
    | succ t ih =>
      intro ht
      rw [List.range_succ, List.map_append, List.map_append, List.sum_append,
        ih (by omega)]
      have h1 : t * B < N := lt_of_lt_nBatches N B hB (by omega)
      have hmin : min (t * B) N = t * B := min_eq_left (le_of_lt h1)
      rw [hmin]
      simp only [List.map_cons, List.map_nil, List.sum_cons, List.sum_nil, add_zero]
      have h2 : t * B ≤ min (t * B + B) N := le_min (by omega) (by omega)
      rw [Finset.sum_Ico_consecutive f (Nat.zero_le _) h2]
      have h3 : (t + 1) * B = t * B + B := by ring
      rw [h3]
  have hfin := aux (nBatches N B) le_rfl
  have hN : min (nBatches N B * B) N = N :=
    min_eq_right (mul_nBatches_ge N B hB)
  rw [batchRanges, hfin, hN]

lemma concGrad_batchRanges (X : List (List ℝ)) (y w : List ℝ) (B : ℕ) (hB : 1 ≤ B) :
    concGrad X y w (batchRanges X.length B) = batchGrad X y w 0 X.length := by
  rw [concGrad_closed, batchGrad_closed]
  apply List.map_congr_left
  intro k _
  exact sum_batchRanges X.length B hB
    (fun j => errTerm X y w j * (X.getD j []).getD k 0)

lemma epochConc_eq_epochSeq (X : List (List ℝ)) (y : List ℝ) (lr : ℝ) (B : ℕ)
    (hB : 1 ≤ B) (w : List ℝ) :
    epochConc X y lr B w = epochSeq X y lr w := by
  rw [epochConc, epochSeq, concGrad_batchRanges X y w B hB]

lemma trainLoop_congr (step₁ step₂ : List ℝ → List ℝ)
    (h : ∀ w, step₁ w = step₂ w) :
    ∀ (n : ℕ) (w : List ℝ), trainLoop step₁ n w = trainLoop step₂ n w := by
  intro n
  induction n with
  | zero => intro w; rfl
  | succ n ih =>
    intro w
    rw [trainLoop, trainLoop, ih w, h]

/-- In the serialized idealization (every shared accumulation taken
atomically, as the mutex the code lacks would enforce) the
accumulate-then-apply trainer coincides with the full-batch sequential
trainer for every batch size: the lost-update race of the unsynchronized
accumulation is the only obstruction to the spec's equivalence
property. -/
lemma trainConcurrent_serialized_eq_trainSequential (X : List (List ℝ)) (y : List ℝ)
    (lr : ℝ) (iterations B : ℕ) (hB : 1 ≤ B) :
    trainConcurrent X y lr iterations B = trainSequential X y lr iterations := by
  rw [trainConcurrent, trainSequential]
  exact trainLoop_congr _ _ (epochConc_eq_epochSeq X y lr B hB) iterations _

/-! ## The data race in the shared gradient accumulation

Concrete evaluations on `X = [[1], [1]]`, `y = [0, 0]`, learning rate 1,
one iteration, batch size 1: two batches of one example each, one
feature, and each batch's local gradient component is
`predict([1], [0]) - 0 = sigmoid 0 = 1/2`. -/

lemma predict_one_zero : predict [1] ([0] : List ℝ) = 1 / 2 := by
  have hdot : dotp [1] ([0] : List ℝ) = 0 := by
    simp [dotp]
  rw [predict, hdot, sigmoid, neg_zero, Real.exp_zero]
  norm_num

lemma batchGrad_ex_first : batchGrad [[1], [1]] [0, 0] [0] 0 1 = [1 / 2] := by
  simp [batchGrad, features, List.range', addExample, errTerm, predict_one_zero,
    show List.range 1 = [0] from rfl]

lemma batchGrad_ex_second : batchGrad [[1], [1]] [0, 0] [0] 1 2 = [1 / 2] := by
  simp [batchGrad, features, List.range', addExample, errTerm, predict_one_zero,
    show List.range 1 = [0] from rfl]

lemma batchGrad_ex_full : batchGrad [[1], [1]] [0, 0] [0] 0 2 = [1] := by
  simp [batchGrad, features, List.range', addExample, errTerm, predict_one_zero,
    show List.range 1 = [0] from rfl]
  norm_num

/-- The lost-update interleaving: both batches read the shared component
(value 0) before either writes, so batch 1's write overwrites batch 0's
and only `vals 1` survives. -/
lemma raceResult_lost_update (vals : ℕ → ℝ) :
    raceResult vals
      [RaceAction.read 0, RaceAction.read 1, RaceAction.write 0, RaceAction.write 1] =
      vals 1 := by
  simp [raceResult, raceStep]

/-- The serialized interleaving: each batch completes its
read-modify-write before the next starts, so both contributions
survive. -/
lemma raceResult_serialized (vals : ℕ → ℝ) :
    raceResult vals
      [RaceAction.read 0, RaceAction.write 0, RaceAction.read 1, RaceAction.write 1] =
      vals 0 + vals 1 := by
  simp [raceResult, raceStep]

lemma trainSequential_ex :
    trainSequential [[1], [1]] [0, 0] 1 1 = [-(1 / 2)] := by
  have hw0 : List.replicate (features ([[1], [1]] : List (List ℝ))) (0 : ℝ) = [0] := rfl
  have hN : List.length ([[1], [1]] : List (List ℝ)) = 2 := rfl
  rw [trainSequential, hw0]
  simp only [trainLoop, epochSeq, hN]
  rw [batchGrad_ex_full]
  simp [applyUpdate, show List.range 1 = [0] from rfl]

lemma trainConcurrentRacy_ex_lost :
    trainConcurrentRacy [[1], [1]] [0, 0] 1 1 1
      (fun _ _ => [RaceAction.read 0, RaceAction.read 1, RaceAction.write 0,
        RaceAction.write 1]) = [-(1 / 4)] := by
  have hbr : batchRanges 2 1 = [((0 : ℕ), (1 : ℕ)), (1, 2)] := by decide
  rw [trainConcurrentRacy,
    show List.replicate (features ([[1], [1]] : List (List ℝ))) (0 : ℝ) = [0] from rfl]
  simp only [trainLoopSched, racyEpoch, racyEpochGrad,
    show List.length ([[1], [1]] : List (List ℝ)) = 2 from rfl, hbr,
    show features ([[1], [1]] : List (List ℝ)) = 1 from rfl,
    show List.range 1 = [0] from rfl, List.map_cons, List.map_nil,
    raceResult_lost_update,
    show List.getD [((0 : ℕ), (1 : ℕ)), (1, 2)] 1 (0, 0) = (1, 2) from rfl]
  rw [batchGrad_ex_second]
  simp [applyUpdate, show List.range 1 = [0] from rfl]
  norm_num

lemma trainConcurrentRacy_ex_serialized :
    trainConcurrentRacy [[1], [1]] [0, 0] 1 1 1
      (fun _ _ => [RaceAction.read 0, RaceAction.write 0, RaceAction.read 1,
        RaceAction.write 1]) = [-(1 / 2)] := by
  have hbr : batchRanges 2 1 = [((0 : ℕ), (1 : ℕ)), (1, 2)] := by decide
  rw [trainConcurrentRacy,
    show List.replicate (features ([[1], [1]] : List (List ℝ))) (0 : ℝ) = [0] from rfl]
  simp only [trainLoopSched, racyEpoch, racyEpochGrad,
    show List.length ([[1], [1]] : List (List ℝ)) = 2 from rfl, hbr,
    show features ([[1], [1]] : List (List ℝ)) = 1 from rfl,
    show List.range 1 = [0] from rfl, List.map_cons, List.map_nil,
    raceResult_serialized,
    show List.getD [((0 : ℕ), (1 : ℕ)), (1, 2)] 0 (0, 0) = (0, 1) from rfl,
    show List.getD [((0 : ℕ), (1 : ℕ)), (1, 2)] 1 (0, 0) = (1, 2) from rfl]
  rw [batchGrad_ex_first, batchGrad_ex_second]
  simp [applyUpdate, show List.range 1 = [0] from rfl]

/-- C1 (code bug): the accumulate-then-apply `trainConcurrent` merges each
batch's gradient into the shared `gradients` slice inside its goroutines
with no mutex, so its executions include lost-update interleavings.
Under the admissible interleaving in which both batch tasks read
`gradients[0]` before either writes, the concurrent trainer on
`X = [[1], [1]]`, `y = [0, 0]`, learning rate 1, one iteration, batch
size 1 returns `[-1/4]` while the full-batch sequential trainer returns
`[-1/2]`, a difference far beyond any floating-point tolerance.  The
claimed equality holds only in the serialized idealization, not of the
program as written; the spec's accumulate-then-apply design (barrier,
then a single-writer merge) is clearly the intent and the missing
synchronization a slip. -/
theorem trainConcurrent_race_breaks_equivalence :
    ValidTrace 2
      [RaceAction.read 0, RaceAction.read 1, RaceAction.write 0, RaceAction.write 1] ∧
    trainConcurrentRacy [[1], [1]] [0, 0] 1 1 1
      (fun _ _ => [RaceAction.read 0, RaceAction.read 1, RaceAction.write 0,
        RaceAction.write 1]) = [-(1 / 4)] ∧
    trainSequential [[1], [1]] [0, 0] 1 1 = [-(1 / 2)] ∧
    trainConcurrentRacy [[1], [1]] [0, 0] 1 1 1
      (fun _ _ => [RaceAction.read 0, RaceAction.read 1, RaceAction.write 0,
        RaceAction.write 1]) ≠ trainSequential [[1], [1]] [0, 0] 1 1 := by
  refine ⟨by decide, trainConcurrentRacy_ex_lost, trainSequential_ex, ?_⟩
  rw [trainConcurrentRacy_ex_lost, trainSequential_ex]
  simp only [ne_eq, List.cons.injEq, and_true]
  norm_num

/-- C9 (code bug): on identical inputs, two admissible interleavings of
the unsynchronized `gradients[j] += partialGradients[j]` accumulation,
the serialized one and the lost-update one, drive `trainConcurrent` to
different weight vectors (`[-1/2]` versus `[-1/4]`).  The result of
concurrent training therefore depends on task scheduling, and repeated
runs need not be bit-identical or tolerance-equal; determinism holds only
in the mutex-idealized serialization that the code does not enforce. -/
theorem trainConcurrent_race_breaks_determinism :
    ValidTrace 2
      [RaceAction.read 0, RaceAction.write 0, RaceAction.read 1, RaceAction.write 1] ∧
    ValidTrace 2
      [RaceAction.read 0, RaceAction.read 1, RaceAction.write 0, RaceAction.write 1] ∧
    trainConcurrentRacy [[1], [1]] [0, 0] 1 1 1
      (fun _ _ => [RaceAction.read 0, RaceAction.write 0, RaceAction.read 1,
        RaceAction.write 1]) = [-(1 / 2)] ∧
    trainConcurrentRacy [[1], [1]] [0, 0] 1 1 1
      (fun _ _ => [RaceAction.read 0, RaceAction.read 1, RaceAction.write 0,
        RaceAction.write 1]) = [-(1 / 4)] ∧
    trainConcurrentRacy [[1], [1]] [0, 0] 1 1 1
      (fun _ _ => [RaceAction.read 0, RaceAction.write 0, RaceAction.read 1,
        RaceAction.write 1]) ≠
      trainConcurrentRacy [[1], [1]] [0, 0] 1 1 1
        (fun _ _ => [RaceAction.read 0, RaceAction.read 1, RaceAction.write 0,
          RaceAction.write 1]) := by
  refine ⟨by decide, by decide, trainConcurrentRacy_ex_serialized,
    trainConcurrentRacy_ex_lost, ?_⟩
  rw [trainConcurrentRacy_ex_serialized, trainConcurrentRacy_ex_lost]
  simp only [ne_eq, List.cons.injEq, and_true]
  norm_num

/-! ## Structure of the minibatch partition -/

lemma length_batchRanges (N B : ℕ) : (batchRanges N B).length = nBatches N B := by
  simp [batchRanges]

lemma getD_batchRanges (N B b : ℕ) (hb : b < nBatches N B) :
    (batchRanges N B).getD b (0, 0) = (b * B, min (b * B + B) N) := by
  rw [batchRanges]
  exact getD_map_range _ _ _ _ hb

lemma mem_batchRanges (N B : ℕ) {r : ℕ × ℕ} :
    r ∈ batchRanges N B ↔
      ∃ b, b < nBatches N B ∧ r = (b * B, min (b * B + B) N) := by
  rw [batchRanges]
  constructor
  · intro h
    rcases List.mem_map.mp h with ⟨b, hb, hfb⟩
    exact ⟨b, List.mem_range.mp hb, hfb.symm⟩
  · rintro ⟨b, hb, rfl⟩
    exact List.mem_map.mpr ⟨b, List.mem_range.mpr hb, rfl⟩

lemma nBatches_eq_ceil (N B : ℕ) (hB : 1 ≤ B) :
    nBatches N B = (N + B - 1) / B := by
  have hqr : B * (N / B) + N % B = N := Nat.div_add_mod N B
  have hr : N % B < B := Nat.mod_lt _ (by omega)
  rw [nBatches]
  rcases eq_or_ne (N % B) 0 with h0 | h0
  · rw [if_pos h0]
    rcases Nat.eq_zero_or_pos N with hN0 | hN1
    · subst hN0
      simp [Nat.div_eq_of_lt (show B - 1 < B by omega)]
    · have h1 : N + B - 1 = (B - 1) + B * (N / B) := by omega
      rw [h1, Nat.add_mul_div_left _ _ (show 0 < B by omega),
        Nat.div_eq_of_lt (show B - 1 < B by omega)]
      omega
  · rw [if_neg h0]
    have h1 : N + B - 1 = (N % B - 1) + B * (N / B + 1) := by
      have h2 : B * (N / B + 1) = B * (N / B) + B := by ring
      omega
    rw [h1, Nat.add_mul_div_left _ _ (show 0 < B by omega),
      Nat.div_eq_of_lt (show N % B - 1 < B by omega)]
    omega

lemma one_le_nBatches (N B : ℕ) (hN : 1 ≤ N) (hB : 1 ≤ B) :
    1 ≤ nBatches N B := by
  have hqr : B * (N / B) + N % B = N := Nat.div_add_mod N B
  rw [nBatches]
  rcases eq_or_ne (N % B) 0 with h0 | h0
  · rw [if_pos h0]
    rcases Nat.eq_zero_or_pos (N / B) with hq0 | hq1
    · rw [hq0, Nat.mul_zero] at hqr
      omega
    · omega
  · rw [if_neg h0]
    exact Nat.le_add_left 1 (N / B)

lemma div_mem_index (N B i : ℕ) (hB : 1 ≤ B) (hi : i < N) :
    i / B < nBatches N B ∧ (i / B) * B ≤ i ∧ i < (i / B) * B + B := by
  have hdm : B * (i / B) + i % B = i := Nat.div_add_mod i B
  have hm : i % B < B := Nat.mod_lt _ (by omega)
  have hcomm : (i / B) * B = B * (i / B) := by ring
  refine ⟨?_, by omega, by omega⟩
  rw [Nat.div_lt_iff_lt_mul (show 0 < B by omega)]
  exact lt_of_lt_of_le hi (mul_nBatches_ge N B hB)

lemma index_unique (B b i : ℕ) (hB : 1 ≤ B) (h1 : b * B ≤ i) (h2 : i < b * B + B) :
    i / B = b := by
  apply Nat.div_eq_of_lt_le h1
  have : (b + 1) * B = b * B + B := by ring
  omega

lemma batchRanges_last_size (N B : ℕ) (hN : 1 ≤ N) (hB : 1 ≤ B) :
    ((batchRanges N B).getD ((batchRanges N B).length - 1) (0, 0)).2 -
      ((batchRanges N B).getD ((batchRanges N B).length - 1) (0, 0)).1 =
      if N % B = 0 then B else N % B := by
  have hm1 := one_le_nBatches N B hN hB
  rw [length_batchRanges, getD_batchRanges N B _ (by omega)]
  have hlt : (nBatches N B - 1) * B < N := lt_of_lt_nBatches N B hB (by omega)
  have hqr : B * (N / B) + N % B = N := Nat.div_add_mod N B
  have hr : N % B < B := Nat.mod_lt _ (by omega)
  rcases eq_or_ne (N % B) 0 with h0 | h0
  · rw [if_pos h0]
    have e2 : (nBatches N B - 1) * B = B * (N / B) - B := by
      rw [Nat.sub_mul, one_mul]
      have e3 : nBatches N B * B = B * (N / B) := by
        rw [nBatches, if_pos h0]
        ring
      rw [e3]
    have hBN : B ≤ N := Nat.le_of_dvd (by omega) (Nat.dvd_of_mod_eq_zero h0)
    have hmin : min ((nBatches N B - 1) * B + B) N = N := by
      apply min_eq_right
      omega
    rw [hmin]
    omega
  · rw [if_neg h0]
    have e2 : (nBatches N B - 1) * B = B * (N / B) := by
      rw [nBatches, if_neg h0, Nat.add_sub_cancel]
      ring
    have hmin : min ((nBatches N B - 1) * B + B) N = N := by
      apply min_eq_right
      omega
    rw [hmin]
    omega

/-- C4: for every dataset size `N ≥ 1` and batch size `B ≥ 1` the
generated minibatch ranges are nonempty contiguous subranges of `[0, N)`,
they cover every index, are pairwise disjoint, each batch starts where the
previous one ends, there are exactly `ceil(N/B)` of them, the last batch
has size `N mod B` (or `B` when `B` divides `N`), and a dataset smaller
than one batch yields exactly one batch containing the whole dataset. -/
theorem batchRanges_partition (N B : ℕ) (hN : 1 ≤ N) (hB : 1 ≤ B) :
    (batchRanges N B).length = (N + B - 1) / B ∧
    (∀ i, i < N → ∃ r, r ∈ batchRanges N B ∧ r.1 ≤ i ∧ i < r.2) ∧
    (∀ r ∈ batchRanges N B, r.1 < r.2 ∧ r.2 ≤ N) ∧
    (∀ a b : ℕ, a < (batchRanges N B).length → b < (batchRanges N B).length →
      a ≠ b → ∀ i, ((batchRanges N B).getD a (0, 0)).1 ≤ i →
        i < ((batchRanges N B).getD a (0, 0)).2 →
        ¬(((batchRanges N B).getD b (0, 0)).1 ≤ i ∧
          i < ((batchRanges N B).getD b (0, 0)).2)) ∧
    (∀ a : ℕ, a + 1 < (batchRanges N B).length →
      ((batchRanges N B).getD (a + 1) (0, 0)).1 =
        ((batchRanges N B).getD a (0, 0)).2) ∧
    (((batchRanges N B).getD ((batchRanges N B).length - 1) (0, 0)).2 -
      ((batchRanges N B).getD ((batchRanges N B).length - 1) (0, 0)).1 =
      if N % B = 0 then B else N % B) ∧
    (N < B → batchRanges N B = [(0, N)]) := by
  refine ⟨?_, ?_, ?_, ?_, ?_, ?_, ?_⟩
  · rw [length_batchRanges]
    exact nBatches_eq_ceil N B hB
  · intro i hi
    obtain ⟨hb, hle, hlt⟩ := div_mem_index N B i hB hi
    exact ⟨(i / B * B, min (i / B * B + B) N),
      (mem_batchRanges N B).mpr ⟨i / B, hb, rfl⟩, hle, lt_min hlt hi⟩
  · intro r hr
    obtain ⟨b, hb, rfl⟩ := (mem_batchRanges N B).mp hr
    exact ⟨lt_min (by omega) (lt_of_lt_nBatches N B hB hb), min_le_right _ _⟩
  · intro a b ha hb hab i h1 h2 hcon
    obtain ⟨h3, h4⟩ := hcon
    have ha' : a < nBatches N B := by rwa [length_batchRanges] at ha
    have hb' : b < nBatches N B := by rwa [length_batchRanges] at hb
    rw [getD_batchRanges N B a ha'] at h1 h2
    rw [getD_batchRanges N B b hb'] at h3 h4
    dsimp only at h1 h2 h3 h4
    have e1 : i / B = a :=
      index_unique B a i hB h1 (lt_of_lt_of_le h2 (min_le_left _ _))
    have e2 : i / B = b :=
      index_unique B b i hB h3 (lt_of_lt_of_le h4 (min_le_left _ _))
    exact hab (e1.symm.trans e2)
  · intro a ha
    have ha' : a + 1 < nBatches N B := by rwa [length_batchRanges] at ha
    rw [getD_batchRanges N B (a + 1) ha', getD_batchRanges N B a (by omega)]
    dsimp only
    have h1 : (a + 1) * B < N := lt_of_lt_nBatches N B hB ha'
    have h2 : (a + 1) * B = a * B + B := by ring
    rw [min_eq_left (by omega)]
    omega
  · exact batchRanges_last_size N B hN hB
  · intro hNB
    have h1 : N / B = 0 := Nat.div_eq_of_lt hNB
    have h2 : N % B = N := Nat.mod_eq_of_lt hNB
    have h3 : nBatches N B = 1 := by
      rw [nBatches, h1, h2, if_neg (by omega)]
    rw [batchRanges, h3]
    rw [show List.range 1 = [0] from rfl]
    simp only [List.map_cons, List.map_nil, zero_mul, zero_add]
    rw [min_eq_right hNB.le]

/-- Witness for C4 at `N = 5`, `B = 2` (three batches `[0,2)`, `[2,4)`,
`[4,5)`, the last of size `5 mod 2 = 1`). -/
theorem batchRanges_partition_witness :
    (1 : ℕ) ≤ 5 ∧ (1 : ℕ) ≤ 2 ∧
    ((batchRanges 5 2).length = (5 + 2 - 1) / 2 ∧
    (∀ i, i < 5 → ∃ r, r ∈ batchRanges 5 2 ∧ r.1 ≤ i ∧ i < r.2) ∧
    (∀ r ∈ batchRanges 5 2, r.1 < r.2 ∧ r.2 ≤ 5) ∧
    (∀ a b : ℕ, a < (batchRanges 5 2).length → b < (batchRanges 5 2).length →
      a ≠ b → ∀ i, ((batchRanges 5 2).getD a (0, 0)).1 ≤ i →
        i < ((batchRanges 5 2).getD a (0, 0)).2 →
        ¬(((batchRanges 5 2).getD b (0, 0)).1 ≤ i ∧
          i < ((batchRanges 5 2).getD b (0, 0)).2)) ∧
    (∀ a : ℕ, a + 1 < (batchRanges 5 2).length →
      ((batchRanges 5 2).getD (a + 1) (0, 0)).1 =
        ((batchRanges 5 2).getD a (0, 0)).2) ∧
    (((batchRanges 5 2).getD ((batchRanges 5 2).length - 1) (0, 0)).2 -
      ((batchRanges 5 2).getD ((batchRanges 5 2).length - 1) (0, 0)).1 =
      if 5 % 2 = 0 then 2 else 5 % 2) ∧
    ((5 : ℕ) < 2 → batchRanges 5 2 = [(0, 5)])) :=
  ⟨by decide, by decide, batchRanges_partition 5 2 (by decide) (by decide)⟩

/-! ## The per-batch update of the minibatch sequential trainer -/

lemma getD_applyUpdate (w g : List ℝ) (lr denom : ℝ) (k : ℕ) (hk : k < w.length) :
    (applyUpdate w g lr denom).getD k 0 = w.getD k 0 - lr * g.getD k 0 / denom := by
  rw [applyUpdate]
  exact getD_map_range _ _ _ _ hk

/-- C5: in the minibatch sequential trainer, processing a batch
`[start, end)` accumulates the gradient
`gradient[k] += (predict(x_j, w) - y_j) * x_j[k]` over the batch and
updates `w[k] -= learningRate * gradient[k] / (end - start)`, dividing by
the batch's actual size; in particular, when `B` does not divide `N`, the
final batch divides by its own shorter size `N mod B < B`, not by the
configured batch size. -/
theorem trainSequentialMB_update (X : List (List ℝ)) (y : List ℝ) (lr : ℝ)
    (iterations B : ℕ) (hB : 1 ≤ B) (hN : 1 ≤ X.length) (w : List ℝ)
    (hw : w.length = features X) (s e : ℕ)
    (hmem : (s, e) ∈ batchRanges X.length B) :
    trainSequentialMB X y lr iterations B =
      trainLoop (fun v => (batchRanges X.length B).foldl (batchStep X y lr) v)
        iterations (List.replicate (features X) 0) ∧
    (∀ k, k < features X →
      (batchStep X y lr w (s, e)).getD k 0 =
        w.getD k 0 - lr * (∑ j ∈ Finset.Ico s e,
          (predict (X.getD j []) w - y.getD j 0) * (X.getD j []).getD k 0) /
          ((e - s : ℕ) : ℝ)) ∧
    (X.length % B ≠ 0 →
      ((batchRanges X.length B).getD ((batchRanges X.length B).length - 1) (0, 0)).2 -
        ((batchRanges X.length B).getD ((batchRanges X.length B).length - 1) (0, 0)).1 =
        X.length % B ∧ X.length % B < B) := by
  refine ⟨rfl, ?_, ?_⟩
  · intro k hk
    rw [batchStep]
    dsimp only
    rw [getD_applyUpdate w _ lr _ k (by omega)]
    rw [getD_batchGrad X y w s e k hk]
    simp only [errTerm]
  · intro h0
    refine ⟨?_, Nat.mod_lt _ (by omega)⟩
    rw [batchRanges_last_size X.length B hN hB, if_neg h0]

/-- Witness for C5 on `X = [[1]]`, `y = [1]`, `B = 2`: the single batch is
the final (short) one, of size `1 = 1 mod 2`, smaller than the configured
batch size. -/
theorem trainSequentialMB_update_witness :
    (1 : ℕ) ≤ 2 ∧ (1 : ℕ) ≤ List.length ([[1]] : List (List ℝ)) ∧
    List.length ([0] : List ℝ) = features [[1]] ∧
    ((0, 1) : ℕ × ℕ) ∈ batchRanges (List.length ([[1]] : List (List ℝ))) 2 ∧
    (List.length ([[1]] : List (List ℝ)) % 2 ≠ 0 →
      ((batchRanges (List.length ([[1]] : List (List ℝ))) 2).getD
          ((batchRanges (List.length ([[1]] : List (List ℝ))) 2).length - 1) (0, 0)).2 -
        ((batchRanges (List.length ([[1]] : List (List ℝ))) 2).getD
          ((batchRanges (List.length ([[1]] : List (List ℝ))) 2).length - 1) (0, 0)).1 =
        List.length ([[1]] : List (List ℝ)) % 2 ∧
      List.length ([[1]] : List (List ℝ)) % 2 < 2) :=
  ⟨by decide, by decide, rfl, by decide,
    (trainSequentialMB_update [[1]] [1] 1 1 2 (by decide) (by decide) [0] rfl 0 1
      (by decide)).2.2⟩

/-! ## The trimmed mean -/

lemma trimmedMean_eq_of_lt (times : List ℚ) (t : ℕ) (h : 2 * t < times.length) :
    trimmedMean times t =
      some (((((times.insertionSort (fun a b => a ≤ b)).drop t).take
          (times.length - 2 * t)).sum / ((times.length - 2 * t : ℕ) : ℚ)),
        times.insertionSort (fun a b => a ≤ b)) := by
  have hcond : ¬ times.length ≤ 2 * t := by omega
  simp only [trimmedMean, hcond, if_false, List.length_insertionSort]
  have h2 : (((times.insertionSort (fun a b => a ≤ b)).drop t).take
      (times.length - 2 * t)).length = times.length - 2 * t := by
    rw [List.length_take, List.length_drop, List.length_insertionSort]
    omega
  rw [h2]

/-- C3: the function `trimmedMean` fails (panics, modelled `none`) exactly when the
sample count is at most `2*t`; otherwise it returns the average of the
samples sorted ascending with the smallest `t` and largest `t` discarded;
on `[1..10]` with trim count 1 it returns `5.5`. -/
theorem trimmedMean_spec (times : List ℚ) (t : ℕ) :
    (times.length ≤ 2 * t → trimmedMean times t = none) ∧
    (2 * t < times.length →
      ∃ s, s.Perm times ∧ s.Sorted (fun a b => a ≤ b) ∧
        trimmedMean times t =
          some ((((s.drop t).take (times.length - 2 * t)).sum /
            ((times.length - 2 * t : ℕ) : ℚ)), s)) ∧
    trimmedMean [1, 2, 3, 4, 5, 6, 7, 8, 9, 10] 1 =
      some (11 / 2, [1, 2, 3, 4, 5, 6, 7, 8, 9, 10]) := by
  refine ⟨?_, ?_, ?_⟩
  · intro h
    rw [trimmedMean, if_pos h]
  · intro h
    exact ⟨times.insertionSort (fun a b => a ≤ b),
      List.perm_insertionSort _ _, List.sorted_insertionSort _ _,
      trimmedMean_eq_of_lt times t h⟩
  · rw [trimmedMean_eq_of_lt _ _ (by norm_num)]
    norm_num [List.insertionSort, List.orderedInsert, List.sum_cons, List.sum_nil]

/-- Witness for C3: a too-short sample list is rejected, and the concrete
ten-sample run returns `5.5`. -/
theorem trimmedMean_spec_witness :
    trimmedMean [1, 2] 1 = none ∧
    trimmedMean [1, 2, 3, 4, 5, 6, 7, 8, 9, 10] 1 =
      some (11 / 2, [1, 2, 3, 4, 5, 6, 7, 8, 9, 10]) :=
  ⟨(trimmedMean_spec [1, 2] 1).1 (by decide), (trimmedMean_spec [1, 2] 1).2.2⟩

/-- C10: on a successful call, `trimmedMean` has sorted the caller's
sample slice in place: the slice's final state is an ascending permutation
of its initial contents (the model passes the slice state explicitly; no
other caller-visible state is touched by the function). -/
theorem trimmedMean_sorts_in_place (times : List ℚ) (t : ℕ)
    (h : 2 * t < times.length) :
    ∃ p, trimmedMean times t = some p ∧ p.2.Perm times ∧
      p.2.Sorted (fun a b => a ≤ b) :=
  ⟨_, trimmedMean_eq_of_lt times t h, List.perm_insertionSort _ _,
    List.sorted_insertionSort _ _⟩

/-- Witness for C10: the out-of-order sample list `[3, 1, 2]` comes back
sorted ascending. -/
theorem trimmedMean_sorts_in_place_witness :
    2 * 0 < List.length ([3, 1, 2] : List ℚ) ∧
    ∃ p, trimmedMean [3, 1, 2] 0 = some p ∧ p.2.Perm [3, 1, 2] ∧
      p.2.Sorted (fun a b => a ≤ b) :=
  ⟨by decide, trimmedMean_sorts_in_place [3, 1, 2] 0 (by decide)⟩

/-! ## The predictor -/

/-- C8: for feature and weight vectors of equal length,
`predict(x, w) = sigmoid(dot(x, w))` with `sigmoid(z) = 1/(1 + e^-z)`, a
total function whose value always lies strictly between 0 and 1. -/
theorem predict_spec (x w : List ℝ) (hlen : x.length = w.length) :
    predict x w = 1 / (1 + Real.exp (-(dotp x w))) ∧
    0 < predict x w ∧ predict x w < 1 := by
  refine ⟨rfl, ?_, ?_⟩
  · rw [predict, sigmoid]
    positivity
  · rw [predict, sigmoid]
    rw [div_lt_one (by positivity)]
    have := Real.exp_pos (-(dotp x w))
    linarith

/-- Witness for C8 at `x = [1]`, `w = [0]`. -/
theorem predict_spec_witness :
    List.length ([1] : List ℝ) = List.length ([0] : List ℝ) ∧
    (predict [1] [0] = 1 / (1 + Real.exp (-(dotp [1] [0]))) ∧
      0 < predict [1] [0] ∧ predict [1] [0] < 1) :=
  ⟨rfl, predict_spec [1] [0] rfl⟩

/-! ## The accuracy evaluator -/

/-- C6: on a nonempty dataset with labels in {0, 1}, `calculateAccuracy`
counts exactly the examples whose 0.5-threshold classification equals the
label and returns the percentage correct, a value in [0, 100]; it returns
100 when every classification matches and 0 when every classification is
wrong. -/
theorem calculateAccuracy_spec (X : List (List ℝ)) (y w : List ℝ)
    (hN : X.length ≠ 0)
    (hy : ∀ i, i < X.length → y.getD i 0 = 0 ∨ y.getD i 0 = 1) :
    correctCount X y w = matchCount X y w ∧
    0 ≤ calculateAccuracy X y w ∧ calculateAccuracy X y w ≤ 100 ∧
    calculateAccuracy X y w = (matchCount X y w : ℝ) / (X.length : ℝ) * 100 ∧
    ((∀ i, i < X.length → classify X w i = y.getD i 0) →
      calculateAccuracy X y w = 100) ∧
    ((∀ i, i < X.length → classify X w i ≠ y.getD i 0) →
      calculateAccuracy X y w = 0) := by
  have hiff : ∀ i ∈ Finset.range X.length,
      ((1 / 2 ≤ predict (X.getD i []) w ∧ y.getD i 0 = 1) ∨
        (predict (X.getD i []) w < 1 / 2 ∧ y.getD i 0 = 0)) ↔
      classify X w i = y.getD i 0 := by
    intro i hi
    have hyi := hy i (Finset.mem_range.mp hi)
    rw [classify]
    rcases hyi with h0 | h1
    · rw [h0]
      by_cases hp : 1 / 2 ≤ predict (X.getD i []) w
      · rw [if_pos hp]
        constructor
        · rintro (⟨_, h01⟩ | ⟨hlt, _⟩)
          · exact absurd h01 (by norm_num)
          · exact absurd hp (not_le.mpr hlt)
        · intro h10
          exact absurd h10 (by norm_num)
      · rw [if_neg hp]
        exact ⟨fun _ => rfl, fun _ => Or.inr ⟨not_le.mp hp, rfl⟩⟩
    · rw [h1]
      by_cases hp : 1 / 2 ≤ predict (X.getD i []) w
      · rw [if_pos hp]
        exact ⟨fun _ => rfl, fun _ => Or.inl ⟨hp, rfl⟩⟩
      · rw [if_neg hp]
        constructor
        · rintro (⟨hge, _⟩ | ⟨_, h10⟩)
          · exact absurd hge hp
          · exact absurd h10 (by norm_num)
        · intro h01
          exact absurd h01 (by norm_num)
  have hcc : correctCount X y w = matchCount X y w := by
    rw [correctCount, matchCount]
    exact congrArg Finset.card (Finset.filter_congr hiff)
  have hle : correctCount X y w ≤ X.length := by
    rw [correctCount]
    exact le_trans (Finset.card_filter_le _ _) (le_of_eq (Finset.card_range _))
  have hNpos : (0 : ℝ) < (X.length : ℝ) := by
    have := Nat.pos_of_ne_zero hN
    exact_mod_cast this
  refine ⟨hcc, ?_, ?_, ?_, ?_, ?_⟩
  · rw [calculateAccuracy]
    positivity
  · rw [calculateAccuracy]
    have h1 : (correctCount X y w : ℝ) ≤ (X.length : ℝ) := by exact_mod_cast hle
    have h2 : (correctCount X y w : ℝ) / (X.length : ℝ) ≤ 1 := (div_le_one hNpos).mpr h1
    calc (correctCount X y w : ℝ) / (X.length : ℝ) * 100 ≤ 1 * 100 :=
          mul_le_mul_of_nonneg_right h2 (by norm_num)
      _ = 100 := one_mul 100
  · rw [calculateAccuracy, hcc]
  · intro hall
    rw [calculateAccuracy, hcc, matchCount,
      Finset.filter_true_of_mem (fun i hi => hall i (Finset.mem_range.mp hi)),
      Finset.card_range, div_self (ne_of_gt hNpos)]
    norm_num
  · intro hall
    rw [calculateAccuracy, hcc, matchCount,
      Finset.filter_false_of_mem (fun i hi => hall i (Finset.mem_range.mp hi)),
      Finset.card_empty]
    norm_num

/-- Witness for C6 on `X = [[1]]`, `y = [1]`, `w = [0]`: the one example
is classified 1 (since `predict = sigmoid 0 = 1/2 >= 0.5`) and matches
its label. -/
theorem calculateAccuracy_spec_witness :
    List.length ([[1]] : List (List ℝ)) ≠ 0 ∧
    (∀ i, i < List.length ([[1]] : List (List ℝ)) →
      List.getD ([1] : List ℝ) i 0 = 0 ∨ List.getD ([1] : List ℝ) i 0 = 1) ∧
    (correctCount [[1]] [1] [0] = matchCount [[1]] [1] [0] ∧
    0 ≤ calculateAccuracy [[1]] [1] [0] ∧ calculateAccuracy [[1]] [1] [0] ≤ 100 ∧
    calculateAccuracy [[1]] [1] [0] =
      (matchCount [[1]] [1] [0] : ℝ) / (List.length ([[1]] : List (List ℝ)) : ℝ) * 100 ∧
    ((∀ i, i < List.length ([[1]] : List (List ℝ)) →
        classify [[1]] [0] i = List.getD ([1] : List ℝ) i 0) →
      calculateAccuracy [[1]] [1] [0] = 100) ∧
    ((∀ i, i < List.length ([[1]] : List (List ℝ)) →
        classify [[1]] [0] i ≠ List.getD ([1] : List ℝ) i 0) →
      calculateAccuracy [[1]] [1] [0] = 0)) := by
  have hy : ∀ i, i < List.length ([[1]] : List (List ℝ)) →
      List.getD ([1] : List ℝ) i 0 = 0 ∨ List.getD ([1] : List ℝ) i 0 = 1 := by
    intro i hi
    have h1 : i < 1 := by simpa using hi
    have h2 : i = 0 := by omega
    subst h2
    exact Or.inr rfl
  exact ⟨by decide, hy, calculateAccuracy_spec [[1]] [1] [0] (by decide) hy⟩

/-- C7 (code bug): `calculateAccuracy` performs no empty-dataset check: on
zero examples it evaluates `float64(correct) / float64(len(X)) * 100` with
a zero denominator (a NaN in Go float semantics, the zero-valued division
of the real-number model) and silently returns that result instead of
rejecting the input or reporting the accuracy as undefined. -/
theorem calculateAccuracy_empty_divides_by_zero :
    calculateAccuracy [] [] [] =
      (correctCount [] [] [] : ℝ) / ((List.length ([] : List (List ℝ))) : ℝ) * 100 ∧
    ((List.length ([] : List (List ℝ))) : ℝ) = 0 ∧
    calculateAccuracy [] [] [] = 0 := by
  refine ⟨rfl, by norm_num, ?_⟩
  rw [calculateAccuracy]
  norm_num

/-- C2 (code bug): the first `trainConcurrent` never validates
`batchSize <= 0`.  With `batchSize = -1` it proceeds through all
iterations with an empty batch loop and returns the zero-initialised
weight vector instead of rejecting the configuration, and with
`batchSize = 0` it panics on `len(X)/batchSize` (integer division by
zero, modelled `none`) rather than rejecting the configuration up
front. -/
theorem trainConcurrent_no_batch_size_validation :
    trainConcurrentChecked [[1]] [0] 1 1 (-1) = some [0] ∧
    trainConcurrentChecked [[1]] [0] 1 1 0 = none := by
  constructor
  · rw [trainConcurrentChecked, if_neg (by norm_num)]
    have h1 : goRanges (List.length ([[1]] : List (List ℝ))) (-1) = [] := by
      decide
    rw [h1]
    simp only [trainLoop, concGrad, List.foldl_nil,
      show features ([[1]] : List (List ℝ)) = 1 from rfl, List.replicate_one]
    simp only [applyUpdate, List.length_cons, List.length_nil]
    norm_num [List.getD_cons_zero]
  · rw [trainConcurrentChecked, if_pos rfl]
